import Mathlib

/-!
Shallow embedding of `src/S3_Opti_Fetch.py` and verification of its
specification claims.

The Python module has three behavioural pieces:

* `_calculate_part_size` (lines 9-23): pure arithmetic on the total object
  size, using `total_size / 10000`, `math.ceil(math.log2 ...)`,
  `int(math.pow(2, p))` and `max` with a 5 GiB floor.
* `progress_download_callback` (lines 27-45): mutates the module globals
  `bytes_transferred` / `last_update` and reads `job_update_interval`,
  none of which is ever assigned at module level.
* `multi_part_download` (lines 64-139): plans byte ranges, fetches each
  part into a temp file, reassembles them into the final file, deletes the
  part files, and wraps every exception with a fixed message.

Numeric conventions of the embedding: Python ints are `Nat`; Python
floats are modelled over `Rat`.  The one floating-point step whose
semantics the claims depend on, the binary64 true division
`file_size / part_size` on line 80, is modelled bit-exactly by `rn53`
(round to nearest, ties to even, 53-bit significand) applied to the exact
rational quotient.  The transcendental steps `math.log2` / `math.ceil` /
`math.pow` inside `_calculate_part_size` carry no such guarantee in
CPython; they are modelled by exact real semantics (`clog2q`), which
agrees with the float computation on every input appearing in the claims.
-/

namespace S3OptiFetch

/-- MIN_PART_SIZE from line 15: `5 * 1024 * 1024 * 1024` (5 GiB). -/
def MIN_PART_SIZE : ℕ := 5 * 1024 * 1024 * 1024

/-- Exact ceiling of the base-2 logarithm of a positive rational, the
ideal-real semantics of `math.ceil(math.log2 q)` on line 19. -/
def clog2q (q : ℚ) : ℤ :=
  if 1 ≤ q then (Nat.clog 2 ⌈q⌉.toNat : ℤ) else -(Nat.log 2 ⌊q⁻¹⌋.toNat : ℤ)

/-- Lines 9-23 of the source.  `ideal_part_size = total_size / 10000`;
`power_of_2 = ceil(log2 ideal_part_size)`; `int(math.pow(2, p))`
truncates toward zero, hence is `0` for a negative exponent; finally
`max` with the 5 GiB floor. -/
def _calculate_part_size (total_size : ℕ) : ℕ :=
  let power_of_2 : ℤ := clog2q ((total_size : ℚ) / 10000)
  let part_size : ℕ := if power_of_2 < 0 then 0 else 2 ^ power_of_2.toNat
  max part_size MIN_PART_SIZE

/-- Round a rational to the nearest integer, ties to even (the IEEE-754
default rounding used by CPython float division). -/
def rhe (x : ℚ) : ℤ :=
  if x - ⌊x⌋ < 1 / 2 then ⌊x⌋
  else if 1 / 2 < x - ⌊x⌋ then ⌊x⌋ + 1
  else if ⌊x⌋ % 2 = 0 then ⌊x⌋ else ⌊x⌋ + 1

/-- Floor of the base-2 logarithm of a positive rational (the exponent of
its binade). -/
def flog2 (q : ℚ) : ℤ :=
  if 1 ≤ q then (Nat.log 2 ⌊q⌋.toNat : ℤ) else -(Nat.clog 2 ⌈q⁻¹⌉.toNat : ℤ)

/-- Correct rounding of a nonnegative rational to an IEEE-754 binary64
value: round the 53-bit scaled significand to nearest, ties to even.
Exponent range is unbounded (no overflow/subnormals), which is adequate
for every quantity this program can produce. -/
def rn53 (q : ℚ) : ℚ :=
  (rhe (q * 2 ^ ((52 : ℤ) - flog2 q)) : ℚ) * 2 ^ (flog2 q - 52)

/-- Python binary64 true division `a / b` of two nonnegative ints: the
correctly rounded value of the exact quotient. -/
def floatDiv (a b : ℕ) : ℚ := rn53 ((a : ℚ) / (b : ℚ))

/-- Line 80 of the source: `num_parts = int(file_size / part_size) + 1`.
The division is Python float division; `int` truncates toward zero, which
on this nonnegative value is the floor. -/
def num_parts (file_size : ℕ) : ℕ :=
  (⌊floatDiv file_size (_calculate_part_size file_size)⌋ + 1).toNat

/-- Lines 90-93 of the source: for each `i in range(num_parts)` the part's
inclusive byte range is `start_byte = i * part_size`,
`end_byte = min((i + 1) * part_size - 1, file_size - 1)`. -/
def partPlan (file_size : ℕ) : List (ℕ × ℕ) :=
  (List.range (num_parts file_size)).map fun i =>
    (i * _calculate_part_size file_size,
     min ((i + 1) * _calculate_part_size file_size - 1) (file_size - 1))

/-- A ranged read of the inclusive byte interval `[s, e]` of an object,
as served by a backend that returns exactly the requested bytes.  An
empty interval (`e < s`) yields no bytes. -/
def rangeRead {α : Type} (obj : List α) (s e : ℕ) : List α :=
  (obj.drop s).take (e + 1 - s)

/-! ### Progress tracker (lines 27-45)

The callback uses module globals.  `PyGlobals` models the module's global
namespace entries for the three names the callback touches; the module
body never assigns any of them, so in the state the module is actually
loaded with all three are `none` and a lookup raises `NameError`. -/

/-- The three module globals read by `progress_download_callback`: values
are `none` when the name is not bound in the module namespace. -/
structure PyGlobals where
  bytes_transferred : Option ℕ
  last_update : Option ℚ
  job_update_interval : Option ℚ

/-- The module namespace as the source actually builds it: no statement
in `src/S3_Opti_Fetch.py` ever assigns `bytes_transferred`, `last_update`
or `job_update_interval`, so none of the three names is bound. -/
def moduleInitGlobals : PyGlobals := ⟨none, none, none⟩

/-- Lines 27-45 executed literally against the module namespace, reads in
program order: `bytes_transferred += ...` first, then the comparison
reading `last_update` and `job_update_interval`.  A read of an unbound
name raises `NameError`. -/
def progress_download_callback_py (g : PyGlobals) (timestamp : ℚ)
    (bytes_downloaded total_bytes : ℕ) : Except String (PyGlobals × Option ℚ) :=
  match g.bytes_transferred with
  | none => .error "NameError: name bytes_transferred is not defined"
  | some bt =>
    match g.last_update with
    | none => .error "NameError: name last_update is not defined"
    | some lu =>
      match g.job_update_interval with
      | none => .error "NameError: name job_update_interval is not defined"
      | some ji =>
        if ji ≤ timestamp - lu then
          .ok (⟨some (bt + bytes_downloaded), some timestamp, some ji⟩,
               some ((bytes_downloaded : ℚ) / (total_bytes : ℚ)))
        else
          .ok (⟨some (bt + bytes_downloaded), some lu, some ji⟩, none)

/-- The mutable progress state of lines 31-39 with the two globals bound:
running byte total and timestamp of the last emitted report. -/
structure ProgressState where
  bytes_transferred : ℕ
  last_update : ℚ

/-- Lines 27-45 of the source on a bound state: always add
`bytes_downloaded` to the running total; emit
`bytes_downloaded / total_bytes` and move `last_update` only when at
least `job_update_interval` has elapsed since the last report. -/
def progress_download_callback (job_update_interval timestamp : ℚ)
    (s : ProgressState) (bytes_downloaded total_bytes : ℕ) :
    ProgressState × Option ℚ :=
  if job_update_interval ≤ timestamp - s.last_update then
    (⟨s.bytes_transferred + bytes_downloaded, timestamp⟩,
     some ((bytes_downloaded : ℚ) / (total_bytes : ℚ)))
  else
    (⟨s.bytes_transferred + bytes_downloaded, s.last_update⟩, none)

/-- Run the callback over a sequence of invocations; each event is
`(timestamp, bytes_downloaded, total_bytes)`.  Returns the final state
and the list of emitted reports `(timestamp, fraction)`. -/
def runTracker (job_update_interval : ℚ) (s : ProgressState) :
    List (ℚ × ℕ × ℕ) → ProgressState × List (ℚ × ℚ)
  | [] => (s, [])
  | (t, b, tot) :: evs =>
    if job_update_interval ≤ t - s.last_update then
      let r := runTracker job_update_interval ⟨s.bytes_transferred + b, t⟩ evs
      (r.1, (t, (b : ℚ) / (tot : ℚ)) :: r.2)
    else
      runTracker job_update_interval ⟨s.bytes_transferred + b, s.last_update⟩ evs

/-- The successive values of the loop variable `bytes_downloaded` of
lines 104-110: `bytes_downloaded += len(chunk)` before each callback
invocation, so the callback receives the running within-part totals, not
the individual chunk sizes. -/
def runningTotals (acc : ℕ) : List ℕ → List ℕ
  | [] => []
  | c :: cs => (acc + c) :: runningTotals (acc + c) cs

/-- The argument pairs `(bytes_downloaded, total_bytes)` passed to the
callback while one part with chunk sizes `cs` and content-range total `T`
is streamed (line 111). -/
def partCalls (T : ℕ) (cs : List ℕ) : List (ℕ × ℕ) :=
  (runningTotals 0 cs).map fun b => (b, T)

/-- All callback argument pairs of a whole download run: the parts in
order, each contributing its within-part running totals. -/
def runCalls (parts : List (ℕ × List ℕ)) : List (ℕ × ℕ) :=
  (parts.map fun p => partCalls p.1 p.2).flatten

/-! ### Download orchestration (lines 64-139)

The orchestration is modelled at part granularity.  A fetch of one part
either succeeds with the part's bytes or fails mid-stream leaving the
bytes written so far in the part's temp file (lines 101-111).  The
per-chunk progress callback is not replayed here; its uninitialised
global state is a separate defect settled on its own.  Failure points
follow the spec's error taxonomy: a part fetch can fail
(`FetchOutcome.err`) and the reassembly write can fail after some number
of parts have been appended to the already-created final file
(`reassemblyFault`). -/

/-- Outcome of fetching one part: full success, or a mid-stream failure
that leaves the bytes written so far in the temp file. -/
inductive FetchOutcome (α : Type) where
  | ok : List α → FetchOutcome α
  | err : List α → String → FetchOutcome α

/-- The on-disk result of a run: part files present at the end (indexed
by part number), the final file if it was created, and the raised
(wrapped) error message if any. -/
structure DownloadResult (α : Type) where
  partFiles : List (ℕ × List α)
  finalFile : Option (List α)
  error : Option String

/-- Line 139 of the source:
`raise Exception(f'Error during multipart download: {e}')`. -/
def wrapError (m : String) : String := "Error during multipart download: " ++ m

/-- The fetch loop of lines 90-115: parts are fetched strictly in index
order; each success appends the part file and records the index; the
first failure stops the loop with the partial temp file on disk. -/
def fetchLoop {α : Type} (fetch : ℕ → FetchOutcome α) :
    List ℕ → List (ℕ × List α) → List (ℕ × List α) × Option String
  | [], files => (files, none)
  | i :: rest, files =>
    match fetch i with
    | .ok bs => fetchLoop fetch rest (files ++ [(i, bs)])
    | .err bs m => (files ++ [(i, bs)], some m)

/-- Lines 64-139 of the source.  Plan `num_parts` ranges; fetch them in
order; on success reassemble the recorded parts in order into the final
file and delete every part file (lines 117-131); any failure is wrapped
by the `except` clause (lines 137-139) and performs no cleanup.
`reassemblyFault = some (j, m)` injects a write failure after `j` parts
have been appended to the final file, which `open(..., 'wb')` has already
created at that point (line 121). -/
def multi_part_download {α : Type} (file_size : ℕ)
    (fetch : ℕ → FetchOutcome α) (reassemblyFault : Option (ℕ × String)) :
    DownloadResult α :=
  match fetchLoop fetch (List.range (num_parts file_size)) [] with
  | (files, some m) => ⟨files, none, some (wrapError m)⟩
  | (files, none) =>
    match reassemblyFault with
    | some (j, m) =>
      ⟨files, some (((files.take j).map Prod.snd).flatten), some (wrapError m)⟩
    | none => ⟨[], some ((files.map Prod.snd).flatten), none⟩

/-- A backend that answers every ranged read of lines 92-102 with exactly
the requested bytes of the object. -/
def honestFetch {α : Type} (obj : List α) : ℕ → FetchOutcome α :=
  fun i =>
    .ok (rangeRead obj (i * _calculate_part_size obj.length)
          (min ((i + 1) * _calculate_part_size obj.length - 1) (obj.length - 1)))

/-! ### Lemmas about the exact ceiling log2 -/

lemma clog2q_spec {q : ℚ} (hq : 0 < q) :
    q ≤ 2 ^ clog2q q ∧ (2 : ℚ) ^ (clog2q q - 1) < q := by
  unfold clog2q
  split
  case isTrue h =>
    have hceil : (1 : ℤ) ≤ ⌈q⌉ := by
      have h0 : (0 : ℤ) < ⌈q⌉ := Int.lt_ceil.mpr (by push_cast; linarith)
      omega
    set m := ⌈q⌉.toNat with hm
    have hmZ : (m : ℤ) = ⌈q⌉ := Int.toNat_of_nonneg (by omega)
    have hm1 : 1 ≤ m := by omega
    have hqm : q ≤ (m : ℚ) := by
      have := Int.le_ceil q
      have : q ≤ ((⌈q⌉ : ℤ) : ℚ) := this
      rw [← hmZ] at this
      exact_mod_cast this
    set c := Nat.clog 2 m with hc
    constructor
    · calc q ≤ (m : ℚ) := hqm
        _ ≤ ((2 ^ c : ℕ) : ℚ) := by exact_mod_cast Nat.le_pow_clog one_lt_two m
        _ = (2 : ℚ) ^ (c : ℤ) := by rw [zpow_natCast]; push_cast; ring
    · rcases Nat.lt_or_ge m 2 with hm2 | hm2
      · have hmeq : m = 1 := by omega
        have : c = 0 := by rw [hc, hmeq]; exact Nat.clog_one_right 2
        rw [this]
        norm_num
        linarith
      · have hc1 : 1 ≤ c := by
          by_contra hcon
          have hc0 : c = 0 := by omega
          have := Nat.le_pow_clog one_lt_two m
          rw [← hc, hc0] at this
          simp at this
          omega
        have hlt : 2 ^ (c - 1) < m := Nat.pow_pred_clog_lt_self one_lt_two (by omega)
        have hle : (2 : ℚ) ^ ((c : ℤ) - 1) ≤ (m : ℚ) - 1 := by
          have h1 : (2 : ℚ) ^ ((c : ℤ) - 1) = ((2 ^ (c - 1) : ℕ) : ℚ) := by
            have : (c : ℤ) - 1 = ((c - 1 : ℕ) : ℤ) := by omega
            rw [this, zpow_natCast]; push_cast; ring
          rw [h1]
          have : (2 : ℕ) ^ (c - 1) ≤ m - 1 := by omega
          calc ((2 ^ (c - 1) : ℕ) : ℚ) ≤ ((m - 1 : ℕ) : ℚ) := by exact_mod_cast this
            _ = (m : ℚ) - 1 := by push_cast [hm1]; ring
        have hql : (m : ℚ) - 1 < q := by
          have := Int.ceil_lt_add_one q
          have h2 : ((⌈q⌉ : ℤ) : ℚ) < q + 1 := this
          rw [← hmZ] at h2
          push_cast at h2
          linarith
        linarith
  case isFalse h =>
    have hq1 : q < 1 := by linarith [not_le.mp h]
    have hinv : 1 < q⁻¹ := (one_lt_inv₀ hq).2 hq1
    have hinv0 : 0 < q⁻¹ := by linarith
    have hfl : (1 : ℤ) ≤ ⌊q⁻¹⌋ := by
      rw [Int.le_floor]; exact_mod_cast hinv.le
    set r := ⌊q⁻¹⌋.toNat with hr
    have hrZ : (r : ℤ) = ⌊q⁻¹⌋ := Int.toNat_of_nonneg (by omega)
    have hr1 : 1 ≤ r := by omega
    have hrle : (r : ℚ) ≤ q⁻¹ := by
      have := Int.floor_le q⁻¹
      rw [← hrZ] at this
      exact_mod_cast this
    set L := Nat.log 2 r with hL
    constructor
    · -- q ≤ 2 ^ (-L)
      have h2L : ((2 ^ L : ℕ) : ℚ) ≤ q⁻¹ :=
        le_trans (by exact_mod_cast Nat.pow_log_le_self 2 (by omega)) hrle
      have hpos : (0 : ℚ) < ((2 ^ L : ℕ) : ℚ) := by positivity
      have : (q⁻¹)⁻¹ ≤ ((2 ^ L : ℕ) : ℚ)⁻¹ := by gcongr
      rw [inv_inv] at this
      calc q ≤ ((2 ^ L : ℕ) : ℚ)⁻¹ := this
        _ = (2 : ℚ) ^ (-(L : ℤ)) := by rw [zpow_neg, zpow_natCast]; push_cast; ring_nf
    · -- 2 ^ (-L - 1) < q
      have hrlt : q⁻¹ < ((2 ^ (L + 1) : ℕ) : ℚ) := by
        have h1 : r < 2 ^ (L + 1) := Nat.lt_pow_succ_log_self one_lt_two r
        have h2 : q⁻¹ < (r : ℚ) + 1 := by
          have := Int.lt_floor_add_one q⁻¹
          rw [← hrZ] at this
          exact_mod_cast this
        have h3 : (r : ℚ) + 1 ≤ ((2 ^ (L + 1) : ℕ) : ℚ) := by exact_mod_cast h1
        linarith
      have hpos : (0 : ℚ) < ((2 ^ (L + 1) : ℕ) : ℚ) := by positivity
      have : ((2 ^ (L + 1) : ℕ) : ℚ)⁻¹ < (q⁻¹)⁻¹ := by gcongr
      rw [inv_inv] at this
      calc (2 : ℚ) ^ (-(L : ℤ) - 1) = ((2 ^ (L + 1) : ℕ) : ℚ)⁻¹ := by
            have h1 : (-(L : ℤ) - 1) = -((L + 1 : ℕ) : ℤ) := by push_cast; ring
            rw [h1, zpow_neg, zpow_natCast]
            push_cast
            ring_nf
        _ < q := this

lemma clog2q_unique {q : ℚ} {k : ℤ} (hq : 0 < q)
    (hub : q ≤ 2 ^ k) (hlb : (2 : ℚ) ^ (k - 1) < q) : clog2q q = k := by
  obtain ⟨h1, h2⟩ := clog2q_spec hq
  have ha : (2 : ℚ) ^ (clog2q q - 1) < 2 ^ k := lt_of_lt_of_le h2 hub
  have hb : (2 : ℚ) ^ (k - 1) < 2 ^ clog2q q := lt_of_lt_of_le hlb h1
  have ha' : clog2q q - 1 < k := (zpow_lt_zpow_iff_right₀ (by norm_num : (1 : ℚ) < 2)).mp ha
  have hb' : k - 1 < clog2q q := (zpow_lt_zpow_iff_right₀ (by norm_num : (1 : ℚ) < 2)).mp hb
  omega

lemma flog2_spec {q : ℚ} (hq : 0 < q) :
    (2 : ℚ) ^ flog2 q ≤ q ∧ q < 2 ^ (flog2 q + 1) := by
  unfold flog2
  split
  case isTrue h =>
    have hfl : (1 : ℤ) ≤ ⌊q⌋ := by rw [Int.le_floor]; exact_mod_cast h
    set n := ⌊q⌋.toNat with hn
    have hnZ : (n : ℤ) = ⌊q⌋ := Int.toNat_of_nonneg (by omega)
    have hn1 : 1 ≤ n := by omega
    have hnq : (n : ℚ) ≤ q := by
      have := Int.floor_le q
      rw [← hnZ] at this
      exact_mod_cast this
    set L := Nat.log 2 n with hL
    constructor
    · calc (2 : ℚ) ^ (L : ℤ) = ((2 ^ L : ℕ) : ℚ) := by rw [zpow_natCast]; push_cast; ring
        _ ≤ (n : ℚ) := by exact_mod_cast Nat.pow_log_le_self 2 (by omega)
        _ ≤ q := hnq
    · have h1 : n < 2 ^ (L + 1) := Nat.lt_pow_succ_log_self one_lt_two n
      have h2 : q < (n : ℚ) + 1 := by
        have := Int.lt_floor_add_one q
        rw [← hnZ] at this
        exact_mod_cast this
      have h3 : (n : ℚ) + 1 ≤ ((2 ^ (L + 1) : ℕ) : ℚ) := by exact_mod_cast h1
      calc q < (n : ℚ) + 1 := h2
        _ ≤ ((2 ^ (L + 1) : ℕ) : ℚ) := h3
        _ = (2 : ℚ) ^ ((L : ℤ) + 1) := by
            have : ((L : ℤ) + 1) = ((L + 1 : ℕ) : ℤ) := by push_cast; ring
            rw [this, zpow_natCast]; push_cast; ring
  case isFalse h =>
    have hq1 : q < 1 := by linarith [not_le.mp h]
    have hinv : 1 < q⁻¹ := (one_lt_inv₀ hq).2 hq1
    have hceil : (2 : ℤ) ≤ ⌈q⁻¹⌉ := by
      have h0 : (1 : ℤ) < ⌈q⁻¹⌉ := Int.lt_ceil.mpr (by push_cast; linarith)
      omega
    set r := ⌈q⁻¹⌉.toNat with hr
    have hrZ : (r : ℤ) = ⌈q⁻¹⌉ := Int.toNat_of_nonneg (by omega)
    have hr2 : 2 ≤ r := by omega
    have hrle : q⁻¹ ≤ (r : ℚ) := by
      have := Int.le_ceil q⁻¹
      rw [← hrZ] at this
      exact_mod_cast this
    set C := Nat.clog 2 r with hC
    have hC1 : 1 ≤ C := by
      by_contra hcon
      have hc0 : C = 0 := by omega
      have := Nat.le_pow_clog one_lt_two r
      rw [← hC, hc0] at this
      simp at this
      omega
    constructor
    · -- 2 ^ (-C) ≤ q
      have h2C : q⁻¹ ≤ ((2 ^ C : ℕ) : ℚ) :=
        le_trans hrle (by exact_mod_cast Nat.le_pow_clog one_lt_two r)
      have hpos : (0 : ℚ) < q⁻¹ := by positivity
      have : ((2 ^ C : ℕ) : ℚ)⁻¹ ≤ (q⁻¹)⁻¹ := by gcongr
      rw [inv_inv] at this
      calc (2 : ℚ) ^ (-(C : ℤ)) = ((2 ^ C : ℕ) : ℚ)⁻¹ := by
            rw [zpow_neg, zpow_natCast]; push_cast; ring_nf
        _ ≤ q := this
    · -- q < 2 ^ (-C + 1)
      have hlt : 2 ^ (C - 1) < r := Nat.pow_pred_clog_lt_self one_lt_two (by omega)
      have hlt2 : ((2 ^ (C - 1) : ℕ) : ℚ) < q⁻¹ := by
        have h1 : (2 : ℕ) ^ (C - 1) ≤ r - 1 := by omega
        have h2 : (r : ℚ) - 1 < q⁻¹ := by
          have := Int.ceil_lt_add_one q⁻¹
          rw [← hrZ] at this
          push_cast at this
          linarith
        have h3 : ((2 ^ (C - 1) : ℕ) : ℚ) ≤ ((r - 1 : ℕ) : ℚ) := by exact_mod_cast h1
        have h4 : ((r - 1 : ℕ) : ℚ) = (r : ℚ) - 1 := by
          have : (1 : ℕ) ≤ r := by omega
          push_cast [this]
          ring
        rw [h4] at h3
        linarith
      have hpos : (0 : ℚ) < ((2 ^ (C - 1) : ℕ) : ℚ) := by positivity
      have : (q⁻¹)⁻¹ < ((2 ^ (C - 1) : ℕ) : ℚ)⁻¹ := by gcongr
      rw [inv_inv] at this
      calc q < ((2 ^ (C - 1) : ℕ) : ℚ)⁻¹ := this
        _ = (2 : ℚ) ^ (-(C : ℤ) + 1) := by
            have h1 : (-(C : ℤ) + 1) = -((C - 1 : ℕ) : ℤ) := by omega
            rw [h1, zpow_neg, zpow_natCast]
            push_cast
            ring_nf

lemma flog2_unique {q : ℚ} {k : ℤ} (hq : 0 < q)
    (hlb : (2 : ℚ) ^ k ≤ q) (hub : q < 2 ^ (k + 1)) : flog2 q = k := by
  obtain ⟨h1, h2⟩ := flog2_spec hq
  have ha : (2 : ℚ) ^ k < 2 ^ (flog2 q + 1) := lt_of_le_of_lt hlb h2
  have hb : (2 : ℚ) ^ flog2 q < 2 ^ (k + 1) := lt_of_le_of_lt h1 hub
  have ha' : k < flog2 q + 1 := (zpow_lt_zpow_iff_right₀ (by norm_num : (1 : ℚ) < 2)).mp ha
  have hb' : flog2 q < k + 1 := (zpow_lt_zpow_iff_right₀ (by norm_num : (1 : ℚ) < 2)).mp hb
  omega

/-! ### Lemmas about round-to-nearest-even and the binary64 model -/

lemma rhe_intCast (n : ℤ) : rhe (n : ℚ) = n := by
  unfold rhe
  rw [Int.floor_intCast]
  simp

lemma le_rhe (x : ℚ) : x - 1 / 2 ≤ (rhe x : ℚ) := by
  have hfl : (⌊x⌋ : ℚ) ≤ x := Int.floor_le x
  have hfu : x < (⌊x⌋ : ℚ) + 1 := Int.lt_floor_add_one x
  unfold rhe
  split
  case isTrue h => linarith
  case isFalse h =>
    split
    case isTrue h2 => push_cast; linarith
    case isFalse h2 =>
      have : x - (⌊x⌋ : ℚ) = 1 / 2 := by linarith [not_lt.mp h, not_lt.mp h2]
      split <;> push_cast <;> linarith

lemma rhe_le (x : ℚ) : (rhe x : ℚ) ≤ x + 1 / 2 := by
  have hfl : (⌊x⌋ : ℚ) ≤ x := Int.floor_le x
  unfold rhe
  split
  case isTrue h => linarith
  case isFalse h =>
    split
    case isTrue h2 => push_cast; linarith
    case isFalse h2 =>
      have : x - (⌊x⌋ : ℚ) = 1 / 2 := by linarith [not_lt.mp h, not_lt.mp h2]
      split <;> push_cast <;> linarith

lemma floor_le_rhe (x : ℚ) : ⌊x⌋ ≤ rhe x := by
  unfold rhe
  split
  · exact le_refl _
  · split
    · omega
    · split <;> omega

lemma two_zpow_mul_two_zpow_neg (e : ℤ) : (2 : ℚ) ^ ((52 : ℤ) - e) * 2 ^ (e - 52) = 1 := by
  rw [← zpow_add₀ (by norm_num : (2 : ℚ) ≠ 0)]
  norm_num

lemma rn53_le (q : ℚ) : rn53 q ≤ q + 2 ^ (flog2 q - 53) := by
  unfold rn53
  set e := flog2 q with he
  have hpos : (0 : ℚ) < 2 ^ (e - 52) := by positivity
  have h1 : (rhe (q * 2 ^ ((52 : ℤ) - e)) : ℚ) ≤ q * 2 ^ ((52 : ℤ) - e) + 1 / 2 :=
    rhe_le _
  have h2 : (rhe (q * 2 ^ ((52 : ℤ) - e)) : ℚ) * 2 ^ (e - 52) ≤
      (q * 2 ^ ((52 : ℤ) - e) + 1 / 2) * 2 ^ (e - 52) := by
    exact mul_le_mul_of_nonneg_right h1 hpos.le
  calc (rhe (q * 2 ^ ((52 : ℤ) - e)) : ℚ) * 2 ^ (e - 52) ≤
      (q * 2 ^ ((52 : ℤ) - e) + 1 / 2) * 2 ^ (e - 52) := h2
    _ = q * ((2 : ℚ) ^ ((52 : ℤ) - e) * 2 ^ (e - 52)) + (1 / 2) * 2 ^ (e - 52) := by ring
    _ = q + 2 ^ (e - 53) := by
        rw [two_zpow_mul_two_zpow_neg, mul_one]
        congr 1
        have : (1 : ℚ) / 2 = (2 : ℚ) ^ (-1 : ℤ) := by norm_num
        rw [this, ← zpow_add₀ (by norm_num : (2 : ℚ) ≠ 0)]
        congr 1
        ring

lemma le_rn53 (q : ℚ) : q - 2 ^ (flog2 q - 53) ≤ rn53 q := by
  unfold rn53
  set e := flog2 q with he
  have hpos : (0 : ℚ) < 2 ^ (e - 52) := by positivity
  have h1 : q * 2 ^ ((52 : ℤ) - e) - 1 / 2 ≤ (rhe (q * 2 ^ ((52 : ℤ) - e)) : ℚ) :=
    le_rhe _
  have h2 : (q * 2 ^ ((52 : ℤ) - e) - 1 / 2) * 2 ^ (e - 52) ≤
      (rhe (q * 2 ^ ((52 : ℤ) - e)) : ℚ) * 2 ^ (e - 52) :=
    mul_le_mul_of_nonneg_right h1 hpos.le
  calc q - 2 ^ (e - 53) =
      q * ((2 : ℚ) ^ ((52 : ℤ) - e) * 2 ^ (e - 52)) - (1 / 2) * 2 ^ (e - 52) := by
        rw [two_zpow_mul_two_zpow_neg, mul_one]
        congr 1
        have : (1 : ℚ) / 2 = (2 : ℚ) ^ (-1 : ℤ) := by norm_num
        rw [this, ← zpow_add₀ (by norm_num : (2 : ℚ) ≠ 0)]
        congr 1
        ring
    _ = (q * 2 ^ ((52 : ℤ) - e) - 1 / 2) * 2 ^ (e - 52) := by ring
    _ ≤ (rhe (q * 2 ^ ((52 : ℤ) - e)) : ℚ) * 2 ^ (e - 52) := h2

lemma floor_le_rn53 {q : ℚ} (h : flog2 q ≤ 52) : (⌊q⌋ : ℚ) ≤ rn53 q := by
  unfold rn53
  set e := flog2 q with he
  set k := (52 - e).toNat with hk
  have hke : ((52 : ℤ) - e) = (k : ℤ) := by omega
  have hxM : ((⌊q⌋ * 2 ^ k : ℤ) : ℚ) ≤ q * 2 ^ ((52 : ℤ) - e) := by
    rw [hke, zpow_natCast]
    push_cast
    have : (⌊q⌋ : ℚ) ≤ q := Int.floor_le q
    have hp : (0 : ℚ) < 2 ^ k := by positivity
    exact mul_le_mul_of_nonneg_right this hp.le
  have hM : (⌊q⌋ * 2 ^ k : ℤ) ≤ rhe (q * 2 ^ ((52 : ℤ) - e)) :=
    le_trans (Int.le_floor.mpr hxM) (floor_le_rhe _)
  have hpos : (0 : ℚ) < 2 ^ (e - 52) := by positivity
  have h2 : ((⌊q⌋ * 2 ^ k : ℤ) : ℚ) * 2 ^ (e - 52) ≤
      (rhe (q * 2 ^ ((52 : ℤ) - e)) : ℚ) * 2 ^ (e - 52) := by
    exact mul_le_mul_of_nonneg_right (by exact_mod_cast hM) hpos.le
  calc (⌊q⌋ : ℚ) = ((⌊q⌋ * 2 ^ k : ℤ) : ℚ) * 2 ^ (e - 52) := by
        push_cast
        rw [mul_assoc]
        rw [show ((2 : ℚ) ^ k : ℚ) = (2 : ℚ) ^ ((52 : ℤ) - e) by rw [hke, zpow_natCast]]
        rw [two_zpow_mul_two_zpow_neg, mul_one]
    _ ≤ (rhe (q * 2 ^ ((52 : ℤ) - e)) : ℚ) * 2 ^ (e - 52) := h2

lemma rn53_eq_of_int {q : ℚ} {m : ℤ} (hm : q * 2 ^ ((52 : ℤ) - flog2 q) = (m : ℚ)) :
    rn53 q = q := by
  unfold rn53
  rw [hm, rhe_intCast, ← hm, mul_assoc, two_zpow_mul_two_zpow_neg, mul_one]

lemma flog2_natCast (n : ℕ) (hn : 1 ≤ n) : flog2 (n : ℚ) = (Nat.log 2 n : ℤ) := by
  apply flog2_unique (by exact_mod_cast hn)
  · rw [zpow_natCast]
    exact_mod_cast Nat.pow_log_le_self 2 (by omega)
  · have h1 : n < 2 ^ (Nat.log 2 n + 1) := Nat.lt_pow_succ_log_self one_lt_two n
    have : ((Nat.log 2 n : ℤ) + 1) = ((Nat.log 2 n + 1 : ℕ) : ℤ) := by push_cast; ring
    rw [this, zpow_natCast]
    exact_mod_cast h1

lemma rn53_natCast (n : ℕ) (h : n < 2 ^ 53) : rn53 (n : ℚ) = (n : ℚ) := by
  rcases Nat.eq_zero_or_pos n with h0 | h0
  · subst h0
    exact rn53_eq_of_int (m := 0) (by push_cast; ring)
  · have hL : flog2 (n : ℚ) = (Nat.log 2 n : ℤ) := flog2_natCast n h0
    have hL52 : Nat.log 2 n ≤ 52 := by
      have := Nat.log_lt_of_lt_pow (by omega : n ≠ 0) h
      omega
    apply rn53_eq_of_int (m := (n * 2 ^ (52 - Nat.log 2 n) : ℕ))
    rw [hL]
    have he : ((52 : ℤ) - (Nat.log 2 n : ℤ)) = ((52 - Nat.log 2 n : ℕ) : ℤ) := by omega
    rw [he, zpow_natCast]
    push_cast
    ring

/-! ### Lemmas about the part sizer -/

lemma _calculate_part_size_def (total_size : ℕ) :
    _calculate_part_size total_size =
      max (if clog2q ((total_size : ℚ) / 10000) < 0 then 0
           else 2 ^ (clog2q ((total_size : ℚ) / 10000)).toNat)
        MIN_PART_SIZE := rfl

lemma part_size_ge_min (total_size : ℕ) :
    MIN_PART_SIZE ≤ _calculate_part_size total_size := by
  rw [_calculate_part_size_def]
  exact le_max_right _ _

lemma part_size_pos (total_size : ℕ) : 0 < _calculate_part_size total_size := by
  have := part_size_ge_min total_size
  unfold MIN_PART_SIZE at this
  omega

/-- The computed part size is at least the ideal part size
`total_size / 10000`: the power of two never rounds down. -/
lemma ideal_le_part_size {total_size : ℕ} (h : 1 ≤ total_size) :
    (total_size : ℚ) / 10000 ≤ (_calculate_part_size total_size : ℚ) := by
  have hq : (0 : ℚ) < (total_size : ℚ) / 10000 := by positivity
  obtain ⟨hub, _⟩ := clog2q_spec hq
  rw [_calculate_part_size_def]
  set p := clog2q ((total_size : ℚ) / 10000) with hp
  rcases lt_or_ge p 0 with hneg | hpos
  · have h1 : (total_size : ℚ) / 10000 ≤ 2 ^ p := hub
    have h2 : (2 : ℚ) ^ p < 2 ^ (0 : ℤ) :=
      (zpow_lt_zpow_iff_right₀ (by norm_num : (1 : ℚ) < 2)).mpr hneg
    have h3 : ((max (if p < 0 then 0 else 2 ^ p.toNat) MIN_PART_SIZE : ℕ) : ℚ) ≥
        (MIN_PART_SIZE : ℚ) := by exact_mod_cast le_max_right _ _
    have h4 : (1 : ℚ) ≤ (MIN_PART_SIZE : ℚ) := by unfold MIN_PART_SIZE; norm_num
    simp only [zpow_zero] at h2
    linarith
  · obtain ⟨k, hk⟩ : ∃ k : ℕ, p = (k : ℤ) := ⟨p.toNat, by omega⟩
    have hcast : (2 : ℚ) ^ p = ((2 ^ k : ℕ) : ℚ) := by
      rw [hk, zpow_natCast]
      push_cast
      norm_num
    have h1 : (total_size : ℚ) / 10000 ≤ ((2 ^ k : ℕ) : ℚ) := by
      rw [← hcast]; exact hub
    have hkt : p.toNat = k := by omega
    have h2 : (2 ^ k : ℕ) ≤ max (if p < 0 then 0 else 2 ^ p.toNat) MIN_PART_SIZE := by
      rw [if_neg (by omega), hkt]
      exact le_max_left _ _
    calc (total_size : ℚ) / 10000 ≤ ((2 ^ k : ℕ) : ℚ) := h1
      _ ≤ _ := by exact_mod_cast h2

/-- Whenever `total_size ≤ 10000 * 2 ^ 32`, the 5 GiB floor wins. -/
lemma part_size_eq_min {total_size : ℕ} (h1 : 1 ≤ total_size)
    (h2 : total_size ≤ 42949672960000) :
    _calculate_part_size total_size = MIN_PART_SIZE := by
  have hq : (0 : ℚ) < (total_size : ℚ) / 10000 := by positivity
  obtain ⟨_, hlb⟩ := clog2q_spec hq
  rw [_calculate_part_size_def]
  set p := clog2q ((total_size : ℚ) / 10000) with hp
  have hple : p ≤ 32 := by
    by_contra hcon
    have h33 : (33 : ℤ) ≤ p := by omega
    have hbig : (2 : ℚ) ^ (32 : ℤ) ≤ 2 ^ (p - 1) :=
      zpow_le_zpow_right₀ (by norm_num : (1 : ℚ) ≤ 2) (by omega)
    have hsmall : (total_size : ℚ) / 10000 ≤ 2 ^ (32 : ℤ) := by
      rw [div_le_iff₀ (by norm_num : (0 : ℚ) < 10000)]
      have : ((total_size : ℕ) : ℚ) ≤ (42949672960000 : ℚ) := by exact_mod_cast h2
      norm_num
      linarith
    linarith
  apply Nat.max_eq_right
  split
  · exact Nat.zero_le _
  · have hle : p.toNat ≤ 32 := by omega
    calc (2 : ℕ) ^ p.toNat ≤ 2 ^ 32 := Nat.pow_le_pow_right (by norm_num) hle
      _ ≤ MIN_PART_SIZE := by unfold MIN_PART_SIZE; norm_num

/-- Whenever `total_size > 10000 * 2 ^ 32`, the part size is the rounded-up
power of two, whose exponent is at least 33. -/
lemma part_size_eq_pow {total_size : ℕ} (h : 42949672960000 < total_size) :
    ∃ k : ℕ, 33 ≤ k ∧ _calculate_part_size total_size = 2 ^ k := by
  have hq : (0 : ℚ) < (total_size : ℚ) / 10000 := by positivity
  obtain ⟨hub, _⟩ := clog2q_spec hq
  rw [_calculate_part_size_def]
  set p := clog2q ((total_size : ℚ) / 10000) with hp
  have hpge : (33 : ℤ) ≤ p := by
    by_contra hcon
    have h32 : p ≤ 32 := by omega
    have hmono : (2 : ℚ) ^ p ≤ 2 ^ (32 : ℤ) :=
      zpow_le_zpow_right₀ (by norm_num : (1 : ℚ) ≤ 2) h32
    have hgt : (2 : ℚ) ^ (32 : ℤ) < (total_size : ℚ) / 10000 := by
      rw [lt_div_iff₀ (by norm_num : (0 : ℚ) < 10000)]
      have : (42949672960000 : ℚ) < ((total_size : ℕ) : ℚ) := by exact_mod_cast h
      norm_num
      linarith
    linarith
  refine ⟨p.toNat, by omega, ?_⟩
  rw [if_neg (by omega)]
  apply Nat.max_eq_left
  calc MIN_PART_SIZE ≤ 2 ^ 33 := by unfold MIN_PART_SIZE; norm_num
    _ ≤ 2 ^ p.toNat := Nat.pow_le_pow_right (by norm_num) (by omega)

/-! ### Lemmas about the float division on line 80 -/

lemma floor_cast_div (a b : ℕ) (hb : 0 < b) :
    ⌊(a : ℚ) / (b : ℚ)⌋ = ((a / b : ℕ) : ℤ) := by
  have hbq : (0 : ℚ) < (b : ℚ) := by exact_mod_cast hb
  rw [Int.floor_eq_iff]
  constructor
  · rw [le_div_iff₀ hbq]
    push_cast
    exact_mod_cast Nat.div_mul_le_self a b
  · rw [div_lt_iff₀ hbq]
    have h1 : a < (a / b + 1) * b := by
      have hd := Nat.div_add_mod a b
      have hm : a % b < b := Nat.mod_lt a hb
      calc a = b * (a / b) + a % b := hd.symm
        _ < b * (a / b) + b := by omega
        _ = (a / b + 1) * b := by ring
    push_cast
    exact_mod_cast h1

lemma floatDiv_of_dvd {a b : ℕ} (hb : 0 < b) (hd : b ∣ a) (h : a / b < 2 ^ 53) :
    floatDiv a b = ((a / b : ℕ) : ℚ) := by
  unfold floatDiv
  have hbq : ((b : ℕ) : ℚ) ≠ 0 := by exact_mod_cast hb.ne.symm
  have hcast : ((a / b : ℕ) : ℚ) = (a : ℚ) / (b : ℚ) := Nat.cast_div hd hbq
  rw [← hcast]
  exact rn53_natCast _ h

lemma flog2_lt_of_lt {q : ℚ} (hq : 0 < q) {n : ℤ} (h : q < 2 ^ n) : flog2 q < n := by
  obtain ⟨hlb, _⟩ := flog2_spec hq
  exact (zpow_lt_zpow_iff_right₀ (by norm_num : (1 : ℚ) < 2)).mp (lt_of_le_of_lt hlb h)

lemma floor_floatDiv_zero {a b : ℕ} (h0 : 0 < a) (hab : a < b) (hb : b < 2 ^ 53) :
    ⌊floatDiv a b⌋ = 0 := by
  have hbq : (0 : ℚ) < (b : ℚ) := by exact_mod_cast (by omega : 0 < b)
  unfold floatDiv
  set q := (a : ℚ) / (b : ℚ) with hqdef
  have hq0 : 0 < q := by positivity
  have hq1 : q < 1 := by
    rw [hqdef, div_lt_one hbq]
    exact_mod_cast hab
  have he : flog2 q < 0 := flog2_lt_of_lt hq0 (by simpa using hq1)
  have hup : rn53 q < 1 := by
    have h1 : rn53 q ≤ q + 2 ^ (flog2 q - 53) := rn53_le q
    have h2 : (2 : ℚ) ^ (flog2 q - 53) ≤ 2 ^ (-54 : ℤ) :=
      zpow_le_zpow_right₀ (by norm_num : (1 : ℚ) ≤ 2) (by omega)
    have h3 : q ≤ 1 - 1 / (b : ℚ) := by
      rw [hqdef, div_le_iff₀ hbq]
      have h5 : ((a : ℕ) : ℚ) + 1 ≤ ((b : ℕ) : ℚ) := by exact_mod_cast hab
      calc (a : ℚ) ≤ (b : ℚ) - 1 := by linarith
        _ = (1 - 1 / b) * b := by field_simp
    have h4 : (2 : ℚ) ^ (-54 : ℤ) < 1 / (b : ℚ) := by
      have hb54 : (b : ℚ) < 2 ^ (54 : ℕ) := by
        have h6 : (b : ℚ) < ((2 ^ 53 : ℕ) : ℚ) := by exact_mod_cast hb
        have h7 : ((2 ^ 53 : ℕ) : ℚ) ≤ 2 ^ (54 : ℕ) := by norm_num
        linarith
      have h8 : ((2 : ℚ) ^ (54 : ℕ))⁻¹ < ((b : ℚ))⁻¹ := by gcongr
      calc (2 : ℚ) ^ (-54 : ℤ) = ((2 : ℚ) ^ (54 : ℕ))⁻¹ := by
            rw [show (-54 : ℤ) = -((54 : ℕ) : ℤ) by norm_num, zpow_neg, zpow_natCast]
        _ < ((b : ℚ))⁻¹ := h8
        _ = 1 / (b : ℚ) := (one_div _).symm
    calc rn53 q ≤ q + 2 ^ (flog2 q - 53) := h1
      _ ≤ (1 - 1 / (b : ℚ)) + 2 ^ (-54 : ℤ) := add_le_add h3 h2
      _ < (1 - 1 / (b : ℚ)) + 1 / (b : ℚ) := by linarith
      _ = 1 := by ring
  have hlo : (0 : ℚ) ≤ rn53 q := by
    have h1 : (⌊q⌋ : ℚ) ≤ rn53 q := floor_le_rn53 (by omega)
    have h2 : ⌊q⌋ = 0 := Int.floor_eq_zero_iff.mpr ⟨hq0.le, hq1⟩
    rw [h2] at h1
    exact_mod_cast h1
  rw [Int.floor_eq_iff]
  constructor
  · exact_mod_cast hlo
  · push_cast
    linarith

/-- For any file size below `2 ^ 53` the binary64 division of line 80
floors to the exact integer quotient. -/
lemma floor_floatDiv_eq {fs : ℕ} (h1 : 1 ≤ fs) (h53 : fs < 2 ^ 53) :
    ⌊floatDiv fs (_calculate_part_size fs)⌋ =
      ((fs / _calculate_part_size fs : ℕ) : ℤ) := by
  set ps := _calculate_part_size fs with hps
  have hpspos : 0 < ps := part_size_pos fs
  rcases le_or_lt fs 42949672960000 with hsmall | hbig
  · have hminval : ps = 5368709120 := by
      rw [hps, part_size_eq_min h1 hsmall]
      rfl
    rcases lt_or_ge fs ps with hlt | hge
    · rw [floor_floatDiv_zero h1 hlt (by rw [hminval]; norm_num),
        Nat.div_eq_of_lt hlt]
      norm_num
    · by_cases hdvd : ps ∣ fs
      · rw [floatDiv_of_dvd hpspos hdvd (lt_of_le_of_lt (Nat.div_le_self fs ps) h53)]
        exact Int.floor_natCast _
      · have hpsq : (0 : ℚ) < (ps : ℚ) := by exact_mod_cast hpspos
        unfold floatDiv
        set q := (fs : ℚ) / (ps : ℚ) with hqdef
        have hq0 : (0 : ℚ) < q := by positivity
        have hub : q < 2 ^ (13 : ℤ) := by
          rw [hqdef, div_lt_iff₀ hpsq]
          have hc1 : ((fs : ℕ) : ℚ) ≤ 42949672960000 := by exact_mod_cast hsmall
          have hc2 : ((ps : ℕ) : ℚ) = 5368709120 := by exact_mod_cast hminval
          rw [hc2]
          norm_num
          linarith
        have he13 : flog2 q ≤ 12 := by
          have := flog2_lt_of_lt hq0 hub
          omega
        have herr : (2 : ℚ) ^ (flog2 q - 53) ≤ 2 ^ (-41 : ℤ) :=
          zpow_le_zpow_right₀ (by norm_num : (1 : ℚ) ≤ 2) (by omega)
        have hn := floor_cast_div fs ps hpspos
        have hlow : ((fs / ps : ℕ) : ℚ) ≤ rn53 q := by
          have hfl : (⌊q⌋ : ℚ) ≤ rn53 q := floor_le_rn53 (by omega)
          rw [hn] at hfl
          exact_mod_cast hfl
        have hmodlt : fs % ps < ps := Nat.mod_lt fs hpspos
        have hqsplit : q = ((fs / ps : ℕ) : ℚ) + ((fs % ps : ℕ) : ℚ) / (ps : ℚ) := by
          have hd : (fs : ℚ) = (ps : ℚ) * ((fs / ps : ℕ) : ℚ) + ((fs % ps : ℕ) : ℚ) := by
            exact_mod_cast (Nat.div_add_mod fs ps).symm
          rw [hqdef, hd]
          field_simp
          ring
        have hfrac : ((fs % ps : ℕ) : ℚ) / (ps : ℚ) ≤ 1 - 1 / (ps : ℚ) := by
          rw [div_le_iff₀ hpsq]
          have h5 : ((fs % ps : ℕ) : ℚ) + 1 ≤ ((ps : ℕ) : ℚ) := by exact_mod_cast hmodlt
          calc ((fs % ps : ℕ) : ℚ) ≤ (ps : ℚ) - 1 := by linarith
            _ = (1 - 1 / (ps : ℚ)) * (ps : ℚ) := by field_simp
        have h41 : (2 : ℚ) ^ (-41 : ℤ) < 1 / (ps : ℚ) := by
          have hps41 : (ps : ℚ) < 2 ^ (41 : ℕ) := by
            rw [show ((ps : ℕ) : ℚ) = 5368709120 by exact_mod_cast hminval]
            norm_num
          have h8 : ((2 : ℚ) ^ (41 : ℕ))⁻¹ < ((ps : ℚ))⁻¹ := by gcongr
          calc (2 : ℚ) ^ (-41 : ℤ) = ((2 : ℚ) ^ (41 : ℕ))⁻¹ := by
                rw [show (-41 : ℤ) = -((41 : ℕ) : ℤ) by norm_num, zpow_neg, zpow_natCast]
            _ < ((ps : ℚ))⁻¹ := h8
            _ = 1 / (ps : ℚ) := (one_div _).symm
        have hup : rn53 q < ((fs / ps : ℕ) : ℚ) + 1 := by
          calc rn53 q ≤ q + 2 ^ (flog2 q - 53) := rn53_le q
            _ ≤ q + 2 ^ (-41 : ℤ) := by linarith
            _ < q + 1 / (ps : ℚ) := by linarith
            _ = ((fs / ps : ℕ) : ℚ) + (((fs % ps : ℕ) : ℚ) / (ps : ℚ) + 1 / (ps : ℚ)) := by
                rw [hqsplit]; ring
            _ ≤ ((fs / ps : ℕ) : ℚ) + ((1 - 1 / (ps : ℚ)) + 1 / (ps : ℚ)) := by linarith
            _ = ((fs / ps : ℕ) : ℚ) + 1 := by ring
        rw [Int.floor_eq_iff]
        constructor
        · exact_mod_cast hlow
        · push_cast
          exact_mod_cast hup
  · obtain ⟨k, hk33, hkeq⟩ := part_size_eq_pow hbig
    have hpsq : (0 : ℚ) < (ps : ℚ) := by exact_mod_cast hpspos
    have hpscast : ((ps : ℕ) : ℚ) = (2 : ℚ) ^ (k : ℕ) := by
      rw [hps, hkeq]
      push_cast
      norm_num
    unfold floatDiv
    set q := (fs : ℚ) / (ps : ℚ) with hqdef
    have hq0 : (0 : ℚ) < q := by positivity
    have hqlt : q < 2 ^ ((53 : ℤ) - k) := by
      rw [hqdef, div_lt_iff₀ hpsq, hpscast]
      have hstep : (2 : ℚ) ^ ((53 : ℤ) - k) * (2 : ℚ) ^ (k : ℕ) = 2 ^ (53 : ℕ) := by
        rw [← zpow_natCast (2 : ℚ) k, ← zpow_add₀ (by norm_num : (2 : ℚ) ≠ 0)]
        norm_num
      rw [hstep]
      exact_mod_cast h53
    set e := flog2 q with hedef
    have he : e ≤ 52 - (k : ℤ) := by
      have := flog2_lt_of_lt hq0 hqlt
      omega
    have hkq : q * (2 : ℚ) ^ ((k : ℕ) : ℤ) = (fs : ℚ) := by
      rw [hqdef, hpscast, zpow_natCast]
      field_simp
    have hexp : ((52 : ℤ) - e - k) = (((52 - e - k).toNat : ℕ) : ℤ) := by omega
    have hex : q * 2 ^ ((52 : ℤ) - e) =
        ((fs * 2 ^ ((52 - e - k).toNat) : ℕ) : ℚ) := by
      have hsplit : (2 : ℚ) ^ ((52 : ℤ) - e) =
          (2 : ℚ) ^ ((k : ℕ) : ℤ) * (2 : ℚ) ^ ((52 : ℤ) - e - k) := by
        rw [← zpow_add₀ (by norm_num : (2 : ℚ) ≠ 0)]
        congr 1
        ring
      calc q * 2 ^ ((52 : ℤ) - e)
          = (q * (2 : ℚ) ^ ((k : ℕ) : ℤ)) * (2 : ℚ) ^ ((52 : ℤ) - e - k) := by
            rw [hsplit]; ring
        _ = (fs : ℚ) * (2 : ℚ) ^ ((52 : ℤ) - e - k) := by rw [hkq]
        _ = ((fs * 2 ^ ((52 - e - k).toNat) : ℕ) : ℚ) := by
            conv_lhs => rw [hexp, zpow_natCast]
            push_cast
            ring
    rw [show rn53 q = q from rn53_eq_of_int hex, hqdef]
    exact floor_cast_div fs ps hpspos

/-! ### Lemmas about the part count of line 80 -/

lemma num_parts_eq_exact {fs : ℕ} (h1 : 1 ≤ fs) (h53 : fs < 2 ^ 53) :
    num_parts fs = fs / _calculate_part_size fs + 1 := by
  unfold num_parts
  rw [floor_floatDiv_eq h1 h53]
  rw [show (((fs / _calculate_part_size fs : ℕ) : ℤ) + 1) =
      ((fs / _calculate_part_size fs + 1 : ℕ) : ℤ) by push_cast; ring]
  exact Int.toNat_natCast _

lemma num_parts_one : num_parts 1 = 1 := by
  rw [num_parts_eq_exact (by norm_num) (by norm_num),
    part_size_eq_min (by norm_num) (by norm_num)]
  decide

lemma num_parts_5gib : num_parts 5368709120 = 2 := by
  rw [num_parts_eq_exact (by norm_num) (by norm_num),
    part_size_eq_min (by norm_num) (by norm_num)]
  decide

lemma num_parts_50gib : num_parts 53687091200 = 11 := by
  rw [num_parts_eq_exact (by norm_num) (by norm_num),
    part_size_eq_min (by norm_num) (by norm_num)]
  decide

lemma part_size_5gib : _calculate_part_size 5368709120 = 5368709120 := by
  rw [part_size_eq_min (by norm_num) (by norm_num)]
  rfl

lemma part_size_50gib : _calculate_part_size 53687091200 = 5368709120 := by
  rw [part_size_eq_min (by norm_num) (by norm_num)]
  rfl

/-- The part count always suffices to cover the whole object: the float
rounding can only ever push the count up, never below the exact count. -/
lemma le_num_parts_mul {fs : ℕ} (h1 : 1 ≤ fs) :
    fs ≤ num_parts fs * _calculate_part_size fs := by
  have hpspos : 0 < _calculate_part_size fs := part_size_pos fs
  have hpsq : (0 : ℚ) < ((_calculate_part_size fs : ℕ) : ℚ) := by exact_mod_cast hpspos
  have hq0 : (0 : ℚ) < (fs : ℚ) / ((_calculate_part_size fs : ℕ) : ℚ) := by positivity
  have hq14 : (fs : ℚ) / ((_calculate_part_size fs : ℕ) : ℚ) < 2 ^ (14 : ℤ) := by
    have hid := ideal_le_part_size h1
    rw [div_lt_iff₀ hpsq]
    have hfs : (fs : ℚ) ≤ 10000 * ((_calculate_part_size fs : ℕ) : ℚ) := by
      rw [div_le_iff₀ (by norm_num : (0 : ℚ) < 10000)] at hid
      linarith
    have h2 : (10000 : ℚ) < 2 ^ (14 : ℤ) := by
      rw [show ((14 : ℤ)) = ((14 : ℕ) : ℤ) by norm_num, zpow_natCast]
      norm_num
    nlinarith
  have he : flog2 ((fs : ℚ) / ((_calculate_part_size fs : ℕ) : ℚ)) ≤ 13 := by
    have := flog2_lt_of_lt hq0 hq14
    omega
  have hlow : ((fs / _calculate_part_size fs : ℕ) : ℚ) ≤
      rn53 ((fs : ℚ) / ((_calculate_part_size fs : ℕ) : ℚ)) := by
    have hfl := floor_le_rn53 (q := (fs : ℚ) / ((_calculate_part_size fs : ℕ) : ℚ))
      (by omega)
    rw [floor_cast_div fs _ hpspos] at hfl
    exact_mod_cast hfl
  have hfloor : ((fs / _calculate_part_size fs : ℕ) : ℤ) ≤
      ⌊floatDiv fs (_calculate_part_size fs)⌋ := by
    rw [Int.le_floor]
    unfold floatDiv
    exact_mod_cast hlow
  have hnp : fs / _calculate_part_size fs + 1 ≤ num_parts fs := by
    unfold num_parts
    omega
  have hcov : fs < (fs / _calculate_part_size fs + 1) * _calculate_part_size fs := by
    have hd := Nat.div_add_mod fs (_calculate_part_size fs)
    have hm : fs % _calculate_part_size fs < _calculate_part_size fs :=
      Nat.mod_lt fs hpspos
    calc fs = _calculate_part_size fs * (fs / _calculate_part_size fs) +
          fs % _calculate_part_size fs := hd.symm
      _ < _calculate_part_size fs * (fs / _calculate_part_size fs) +
          _calculate_part_size fs := by omega
      _ = (fs / _calculate_part_size fs + 1) * _calculate_part_size fs := by ring
  exact (lt_of_lt_of_le hcov (Nat.mul_le_mul_right _ hnp)).le

/-! ### The tie-rounding input `10000 * 2 ^ 40 - 1` -/

lemma part_size_tie : _calculate_part_size 10995116277759999 = 1099511627776 := by
  have h240 : (2 : ℚ) ^ (40 : ℤ) = 1099511627776 := by
    rw [show ((40 : ℤ)) = ((40 : ℕ) : ℤ) by norm_num, zpow_natCast]
    norm_num
  have h239 : (2 : ℚ) ^ ((40 : ℤ) - 1) = 549755813888 := by
    rw [show ((40 : ℤ) - 1) = ((39 : ℕ) : ℤ) by norm_num, zpow_natCast]
    norm_num
  have hc : clog2q (((10995116277759999 : ℕ) : ℚ) / 10000) = 40 := by
    apply clog2q_unique (by positivity)
    · rw [h240]
      rw [div_le_iff₀ (by norm_num : (0 : ℚ) < 10000)]
      norm_num
    · rw [h239]
      rw [lt_div_iff₀ (by norm_num : (0 : ℚ) < 10000)]
      norm_num
  rw [_calculate_part_size_def, hc]
  decide

lemma num_parts_tie : num_parts 10995116277759999 = 10001 := by
  unfold num_parts floatDiv
  rw [part_size_tie]
  have hcast1 : ((10995116277759999 : ℕ) : ℚ) = 10995116277759999 := by norm_num
  have hcast2 : ((1099511627776 : ℕ) : ℚ) = 1099511627776 := by norm_num
  rw [hcast1, hcast2]
  have hq0 : (0 : ℚ) < 10995116277759999 / 1099511627776 := by norm_num
  have hflog : flog2 ((10995116277759999 : ℚ) / 1099511627776) = 13 := by
    apply flog2_unique hq0
    · rw [show ((13 : ℤ)) = ((13 : ℕ) : ℤ) by norm_num, zpow_natCast]
      rw [le_div_iff₀ (by norm_num : (0 : ℚ) < 1099511627776)]
      norm_num
    · rw [show ((13 : ℤ) + 1) = ((14 : ℕ) : ℤ) by norm_num, zpow_natCast]
      rw [div_lt_iff₀ (by norm_num : (0 : ℚ) < 1099511627776)]
      norm_num
  have hrn : rn53 ((10995116277759999 : ℚ) / 1099511627776) = 10000 := by
    unfold rn53
    rw [hflog]
    have hx : (10995116277759999 : ℚ) / 1099511627776 * 2 ^ ((52 : ℤ) - 13) =
        10995116277759999 / 2 := by
      rw [show ((52 : ℤ) - 13) = ((39 : ℕ) : ℤ) by norm_num, zpow_natCast]
      norm_num
    rw [hx]
    have hfl : ⌊(10995116277759999 / 2 : ℚ)⌋ = 5497558138879999 := by
      apply Int.floor_eq_iff.mpr
      constructor <;> norm_num
    have hrhe : rhe (10995116277759999 / 2 : ℚ) = 5497558138880000 := by
      unfold rhe
      rw [hfl]
      norm_num
    rw [hrhe]
    rw [show ((13 : ℤ) - 52) = -((39 : ℕ) : ℤ) by norm_num, zpow_neg, zpow_natCast]
    norm_num
  rw [hrn]
  rw [show (10000 : ℚ) = ((10000 : ℤ) : ℚ) by norm_num, Int.floor_intCast]
  decide

/-! ### Lemmas about the part plan and reassembly -/

lemma part_size_one : _calculate_part_size 1 = 5368709120 := by
  rw [part_size_eq_min (by norm_num) (by norm_num)]
  rfl

lemma partPlan_one : partPlan 1 = [(0, 0)] := by
  unfold partPlan
  rw [num_parts_one, part_size_one]
  decide

lemma partPlan_5gib :
    partPlan 5368709120 = [(0, 5368709119), (5368709120, 5368709119)] := by
  unfold partPlan
  rw [num_parts_5gib, part_size_5gib]
  decide

/-- Concatenating the first `n` ranged reads of the plan's ranges yields
the prefix of the object up to `min (n * ps) (length obj)`. -/
lemma flatten_rangeRead_prefix {α : Type} (obj : List α) (ps : ℕ)
    (hps : 1 ≤ ps) (hlen : 1 ≤ obj.length) (n : ℕ) :
    ((List.range n).map fun i =>
        rangeRead obj (i * ps) (min ((i + 1) * ps - 1) (obj.length - 1))).flatten =
      obj.take (min (n * ps) obj.length) := by
  induction n with
  | zero => simp
  | succ n ih =>
    rw [List.range_succ, List.map_append, List.flatten_append, ih]
    simp only [List.map_cons, List.map_nil, List.flatten_cons, List.flatten_nil,
      List.append_nil]
    unfold rangeRead
    rcases le_or_lt obj.length (n * ps) with hge | hlt
    · have h1 : min (n * ps) obj.length = obj.length := by omega
      have h2 : min ((n + 1) * ps) obj.length = obj.length := by
        have : n * ps ≤ (n + 1) * ps := by
          have : n ≤ n + 1 := by omega
          exact Nat.mul_le_mul_right ps this
        omega
      have h3 : min ((n + 1) * ps - 1) (obj.length - 1) + 1 - n * ps = 0 := by
        have : obj.length - 1 < n * ps := by omega
        omega
      rw [h1, h2, h3, List.take_length, List.take_zero, List.append_nil]
    · have h1 : min (n * ps) obj.length = n * ps := by omega
      have hup : n * ps < (n + 1) * ps := by
        have : ps > 0 := hps
        calc n * ps < n * ps + ps := by omega
          _ = (n + 1) * ps := by ring
      have h2 : min ((n + 1) * ps - 1) (obj.length - 1) + 1 = min ((n + 1) * ps) obj.length := by
        have hub : 1 ≤ (n + 1) * ps := by omega
        omega
      have h3 : n * ps + (min ((n + 1) * ps) obj.length - n * ps) =
          min ((n + 1) * ps) obj.length := by omega
      have htake := List.take_add obj (n * ps) (min ((n + 1) * ps) obj.length - n * ps)
      rw [h3] at htake
      rw [h1, h2, htake]

/-- The whole planned download covers the object exactly: reading every
range of `partPlan` and concatenating in index order reproduces `obj`. -/
lemma partPlan_flatten {α : Type} (obj : List α) (h : 1 ≤ obj.length) :
    ((partPlan obj.length).map fun p => rangeRead obj p.1 p.2).flatten = obj := by
  unfold partPlan
  rw [List.map_map]
  have hcomp :
      ((fun p : ℕ × ℕ => rangeRead obj p.1 p.2) ∘ fun i =>
        (i * _calculate_part_size obj.length,
         min ((i + 1) * _calculate_part_size obj.length - 1) (obj.length - 1))) =
      fun i => rangeRead obj (i * _calculate_part_size obj.length)
        (min ((i + 1) * _calculate_part_size obj.length - 1) (obj.length - 1)) := rfl
  rw [hcomp,
    flatten_rangeRead_prefix obj _ (part_size_pos obj.length) h (num_parts obj.length)]
  have hcov : obj.length ≤ num_parts obj.length * _calculate_part_size obj.length :=
    le_num_parts_mul h
  rw [min_eq_right hcov, List.take_length]

/-! ### Lemmas about the orchestration loop -/

lemma fetchLoop_ok {α : Type} (body : ℕ → List α) (idxs : List ℕ)
    (files : List (ℕ × List α)) :
    fetchLoop (fun i => FetchOutcome.ok (body i)) idxs files =
      (files ++ idxs.map fun i => (i, body i), none) := by
  induction idxs generalizing files with
  | nil => simp [fetchLoop]
  | cons i rest ih =>
    simp [fetchLoop, ih]

lemma multi_part_download_eq_ok {α : Type} (fs : ℕ) (fetch : ℕ → FetchOutcome α)
    (files : List (ℕ × List α))
    (hloop : fetchLoop fetch (List.range (num_parts fs)) [] = (files, none)) :
    multi_part_download fs fetch none = ⟨[], some ((files.map Prod.snd).flatten), none⟩ := by
  unfold multi_part_download
  rw [hloop]

lemma multi_part_download_eq_err {α : Type} (fs : ℕ) (fetch : ℕ → FetchOutcome α)
    (rf : Option (ℕ × String)) (files : List (ℕ × List α)) (m : String)
    (hloop : fetchLoop fetch (List.range (num_parts fs)) [] = (files, some m)) :
    multi_part_download fs fetch rf = ⟨files, none, some (wrapError m)⟩ := by
  unfold multi_part_download
  rw [hloop]

lemma multi_part_download_eq_rfault {α : Type} (fs : ℕ) (fetch : ℕ → FetchOutcome α)
    (j : ℕ) (m : String) (files : List (ℕ × List α))
    (hloop : fetchLoop fetch (List.range (num_parts fs)) [] = (files, none)) :
    multi_part_download fs fetch (some (j, m)) =
      ⟨files, some (((files.take j).map Prod.snd).flatten), some (wrapError m)⟩ := by
  unfold multi_part_download
  rw [hloop]

/-- An honest backend and no local write fault: the run produces the
original object as the final file and deletes every part file. -/
lemma multi_part_download_honest {α : Type} (obj : List α) (h : 1 ≤ obj.length) :
    multi_part_download obj.length (honestFetch obj) none = ⟨[], some obj, none⟩ := by
  rw [multi_part_download_eq_ok obj.length (honestFetch obj)
    ((List.range (num_parts obj.length)).map fun i =>
      (i, rangeRead obj (i * _calculate_part_size obj.length)
        (min ((i + 1) * _calculate_part_size obj.length - 1) (obj.length - 1))))
    (fetchLoop_ok _ _ [])]
  have hflat :
      ((((List.range (num_parts obj.length)).map fun i =>
        (i, rangeRead obj (i * _calculate_part_size obj.length)
          (min ((i + 1) * _calculate_part_size obj.length - 1) (obj.length - 1)))).map
            Prod.snd).flatten) = obj := by
    rw [List.map_map]
    exact flatten_rangeRead_prefix obj _ (part_size_pos obj.length) h
      (num_parts obj.length) |>.trans
      (by rw [min_eq_right (le_num_parts_mul h), List.take_length])
  rw [hflat]

lemma range_two_cons {n : ℕ} (h : 2 ≤ n) :
    ∃ rest : List ℕ, List.range n = 0 :: 1 :: rest := by
  obtain ⟨k, rfl⟩ : ∃ k, n = k + 2 := ⟨n - 2, by omega⟩
  induction k with
  | zero => exact ⟨[], by decide⟩
  | succ k ih =>
    obtain ⟨rest, hrest⟩ := ih (by omega)
    exact ⟨rest ++ [k + 2], by rw [List.range_succ, hrest]; rfl⟩

lemma fetchLoop_err_second {α : Type} (fetch : ℕ → FetchOutcome α)
    (b0 p : List α) (m : String) (h0 : fetch 0 = .ok b0) (h1 : fetch 1 = .err p m)
    (rest : List ℕ) :
    fetchLoop fetch (0 :: 1 :: rest) [] = ([(0, b0), (1, p)], some m) := by
  simp [fetchLoop, h0, h1]

/-! ### Lemmas about the progress tracker -/

lemma runTracker_nil (ji : ℚ) (s : ProgressState) : runTracker ji s [] = (s, []) := rfl

lemma runTracker_cons (ji : ℚ) (s : ProgressState) (t : ℚ) (b tot : ℕ)
    (evs : List (ℚ × ℕ × ℕ)) :
    runTracker ji s ((t, b, tot) :: evs) =
      if ji ≤ t - s.last_update then
        ((runTracker ji ⟨s.bytes_transferred + b, t⟩ evs).1,
         (t, (b : ℚ) / (tot : ℚ)) :: (runTracker ji ⟨s.bytes_transferred + b, t⟩ evs).2)
      else runTracker ji ⟨s.bytes_transferred + b, s.last_update⟩ evs := rfl

/-- The tracker adds its `bytes_downloaded` argument to the running total
on every invocation, reports emitted or not. -/
lemma runTracker_bytes (ji : ℚ) (s : ProgressState) (evs : List (ℚ × ℕ × ℕ)) :
    (runTracker ji s evs).1.bytes_transferred =
      s.bytes_transferred + (evs.map fun e => e.2.1).sum := by
  induction evs generalizing s with
  | nil => simp [runTracker_nil]
  | cons e rest ih =>
    obtain ⟨t, b, tot⟩ := e
    rw [runTracker_cons]
    split
    · simp only [List.map_cons, List.sum_cons]
      rw [ih ⟨s.bytes_transferred + b, t⟩]
      simp only []
      omega
    · simp only [List.map_cons, List.sum_cons]
      rw [ih ⟨s.bytes_transferred + b, s.last_update⟩]
      simp only []
      omega

/-- Consecutive emitted reports are at least the configured interval
apart, anchored at the initial `last_update`. -/
lemma runTracker_chain (ji : ℚ) (s : ProgressState) (evs : List (ℚ × ℕ × ℕ)) :
    List.Chain' (fun a b => a + ji ≤ b)
      (s.last_update :: ((runTracker ji s evs).2.map Prod.fst)) := by
  induction evs generalizing s with
  | nil => simp [runTracker_nil]
  | cons e rest ih =>
    obtain ⟨t, b, tot⟩ := e
    rw [runTracker_cons]
    split
    case isTrue h =>
      simp only [List.map_cons]
      rw [List.chain'_cons]
      refine ⟨by linarith, ?_⟩
      exact ih ⟨s.bytes_transferred + b, t⟩
    case isFalse h =>
      exact ih ⟨s.bytes_transferred + b, s.last_update⟩

/-- The final `last_update` is the timestamp of the last emitted report,
or the initial value when nothing was emitted: the timestamp is moved
only when a report is actually emitted. -/
lemma runTracker_last_update (ji : ℚ) (s : ProgressState) (evs : List (ℚ × ℕ × ℕ)) :
    (runTracker ji s evs).1.last_update =
      ((runTracker ji s evs).2.map Prod.fst).getLastD s.last_update := by
  induction evs generalizing s with
  | nil => simp [runTracker_nil]
  | cons e rest ih =>
    obtain ⟨t, b, tot⟩ := e
    rw [runTracker_cons]
    split
    · simp only [List.map_cons, List.getLastD_cons]
      exact ih ⟨s.bytes_transferred + b, t⟩
    · exact ih ⟨s.bytes_transferred + b, s.last_update⟩

/-- Every emitted report comes from one of the invocations, with fraction
exactly `bytes_downloaded / total_bytes` of that invocation. -/
lemma runTracker_reports_mem (ji : ℚ) (s : ProgressState) (evs : List (ℚ × ℕ × ℕ)) :
    ∀ r ∈ (runTracker ji s evs).2,
      ∃ e ∈ evs, r = (e.1, (e.2.1 : ℚ) / (e.2.2 : ℚ)) := by
  induction evs generalizing s with
  | nil => simp [runTracker_nil]
  | cons e rest ih =>
    obtain ⟨t, b, tot⟩ := e
    rw [runTracker_cons]
    split
    · intro r hr
      rcases List.mem_cons.mp hr with h | h
      · exact ⟨(t, b, tot), List.mem_cons_self _ _, h⟩
      · obtain ⟨e', he', heq⟩ := ih ⟨s.bytes_transferred + b, t⟩ r h
        exact ⟨e', List.mem_cons_of_mem _ he', heq⟩
    · intro r hr
      obtain ⟨e', he', heq⟩ := ih ⟨s.bytes_transferred + b, s.last_update⟩ r hr
      exact ⟨e', List.mem_cons_of_mem _ he', heq⟩

/-- Membership in the running totals of a chunk list: every value is the
sum of a nonempty prefix of the chunk sizes. -/
lemma runningTotals_mem (cs : List ℕ) :
    ∀ acc x, x ∈ runningTotals acc cs →
      ∃ j, j + 1 ≤ cs.length ∧ x = acc + (cs.take (j + 1)).sum := by
  induction cs with
  | nil => intro acc x hx; simp [runningTotals] at hx
  | cons c rest ih =>
    intro acc x hx
    rw [runningTotals] at hx
    rcases List.mem_cons.mp hx with h | h
    · exact ⟨0, by simp, by simpa using h⟩
    · obtain ⟨j, hj, hx'⟩ := ih (acc + c) x h
      refine ⟨j + 1, by simpa using hj, ?_⟩
      rw [hx']
      simp [List.sum_cons]
      omega

/-! ### Claim theorems -/

/-- C1: at a total size that is an exact multiple of the computed part
size (5 GiB exactly, where the part size is also 5 GiB), line 80's
`int(file_size / part_size) + 1` produces a second, degenerate range
whose inclusive end `5368709119` lies before its start `5368709120`, so
the plan does not consist of ranges with `end ≥ start` tiling
`[0, totalSize)`. -/
theorem partPlan_exact_multiple_degenerate :
    _calculate_part_size 5368709120 = 5368709120 ∧
    partPlan 5368709120 = [(0, 5368709119), (5368709120, 5368709119)] ∧
    ∃ p ∈ partPlan 5368709120, p.2 < p.1 := by
  refine ⟨part_size_5gib, partPlan_5gib, ⟨(5368709120, 5368709119), ?_, by norm_num⟩⟩
  rw [partPlan_5gib]
  simp

/-- C2 (amended): for every positive totalSize the computed part size is
at least 5 GiB, and it is either exactly the 5 GiB floor `5 * 1024 ^ 3`
(which is not a power of two) or a power of two with exponent at least
33. -/
theorem calculate_part_size_min_or_pow (total_size : ℕ) (h : 1 ≤ total_size) :
    MIN_PART_SIZE ≤ _calculate_part_size total_size ∧
    (_calculate_part_size total_size = MIN_PART_SIZE ∨
      ∃ k : ℕ, 33 ≤ k ∧ _calculate_part_size total_size = 2 ^ k) := by
  refine ⟨part_size_ge_min total_size, ?_⟩
  rcases le_or_lt total_size 42949672960000 with hsmall | hbig
  · exact Or.inl (part_size_eq_min h hsmall)
  · exact Or.inr (part_size_eq_pow hbig)

/-- Witness for C2's amended theorem at totalSize 1. -/
theorem calculate_part_size_min_or_pow_witness :
    MIN_PART_SIZE ≤ _calculate_part_size 1 ∧
    (_calculate_part_size 1 = MIN_PART_SIZE ∨
      ∃ k : ℕ, 33 ≤ k ∧ _calculate_part_size 1 = 2 ^ k) :=
  calculate_part_size_min_or_pow 1 (by decide)

/-- C2 (counterexample): at totalSize 1 the function returns the 5 GiB
floor `5368709120 = 5 * 2 ^ 30`, which is not a power of two, refuting
the claim that the result is always a power of two. -/
theorem calculate_part_size_not_power_of_two_cex :
    _calculate_part_size 1 = 5368709120 ∧ ¬ ∃ k : ℕ, (5368709120 : ℕ) = 2 ^ k := by
  refine ⟨part_size_one, ?_⟩
  rintro ⟨k, hk⟩
  rcases le_or_lt k 32 with hle | hge
  · have : (2 : ℕ) ^ k ≤ 2 ^ 32 := Nat.pow_le_pow_right (by norm_num) hle
    omega
  · have : (2 : ℕ) ^ 33 ≤ 2 ^ k := Nat.pow_le_pow_right (by norm_num) (by omega)
    omega

/-- C3: the module never assigns `bytes_transferred`, `last_update` or
`job_update_interval`, so in the module's actual global namespace every
invocation of the progress callback fails immediately with a `NameError`
on its first statement instead of reading well-defined values. -/
theorem progress_globals_unbound_first_call :
    ∀ (t : ℚ) (b tot : ℕ),
      progress_download_callback_py moduleInitGlobals t b tot =
        Except.error "NameError: name bytes_transferred is not defined" :=
  fun _ _ _ => rfl

/-- C4 (amended): over any sequence of chunk callbacks, consecutive
emitted reports (anchored at the initial `last_update`) are at least the
configured interval apart, and the final running total equals the initial
total plus the sum of the `bytes_downloaded` arguments passed — which in
a download run are the per-part running totals of lines 104-111 (partial
sums of chunk sizes), not the individual chunk sizes. -/
theorem tracker_throttle_and_accumulation (ji : ℚ) (s0 : ProgressState)
    (evs : List (ℚ × ℕ × ℕ)) :
    List.Chain' (fun a b => a + ji ≤ b)
      (s0.last_update :: ((runTracker ji s0 evs).2.map Prod.fst)) ∧
    (runTracker ji s0 evs).1.bytes_transferred =
      s0.bytes_transferred + (evs.map fun e => e.2.1).sum :=
  ⟨runTracker_chain ji s0 evs, runTracker_bytes ji s0 evs⟩

/-- C4 (counterexample): one part of total 2 streamed as two 1-byte
chunks makes the loop pass running totals 1 then 2 to the callback, so
the final running total is 3, not the sum 2 of the chunk sizes. -/
theorem tracker_total_not_sum_of_chunks_cex :
    (runTracker 1 ⟨0, 0⟩ ([(1 : ℚ), 2].zip (runCalls [(2, [1, 1])]))).1.bytes_transferred ≠
      ([1, 1] : List ℕ).sum := by
  rw [runTracker_bytes]
  simp [runCalls, partCalls, runningTotals]

/-- C5: reading every planned range from a backend that returns exactly
the requested bytes and concatenating the part files in ascending part
index order (as lines 117-126 do) reproduces the object byte for byte;
the full orchestration on such a backend ends with the final file equal
to the object, no error, and all part files deleted. -/
theorem reassembly_round_trip {α : Type} (obj : List α) (h : 1 ≤ obj.length) :
    ((partPlan obj.length).map fun p => rangeRead obj p.1 p.2).flatten = obj ∧
    multi_part_download obj.length (honestFetch obj) none = ⟨[], some obj, none⟩ :=
  ⟨partPlan_flatten obj h, multi_part_download_honest obj h⟩

/-- Witness for C5 on a two-byte object. -/
theorem reassembly_round_trip_witness :
    ((partPlan ([7, 8] : List ℕ).length).map fun p =>
      rangeRead [7, 8] p.1 p.2).flatten = [7, 8] ∧
    multi_part_download ([7, 8] : List ℕ).length (honestFetch [7, 8]) none =
      ⟨[], some [7, 8], none⟩ :=
  reassembly_round_trip [7, 8] (by decide)

/-- C6 (amended): every failure is re-raised as a single message with the
fixed text `Error during multipart download: ` in front; when the second
part's ranged read throws mid-stream, the run aborts with the wrapped
error, the first part's temp file and the second part's partial temp file
remain on disk (nothing is deleted), and no final file exists.  (A
failure during reassembly instead leaves the already-created partial
final file on disk; see the counterexample.) -/
theorem failure_wrapped_and_files_kept :
    (∀ (fs : ℕ) (fetch : ℕ → FetchOutcome ℕ) (rf : Option (ℕ × String)),
      (multi_part_download fs fetch rf).error = none ∨
        ∃ m, (multi_part_download fs fetch rf).error = some (wrapError m)) ∧
    (∀ (fs : ℕ) (fetch : ℕ → FetchOutcome ℕ) (rf : Option (ℕ × String))
      (b0 p : List ℕ) (m : String),
      fetch 0 = .ok b0 → fetch 1 = .err p m → 2 ≤ num_parts fs →
      multi_part_download fs fetch rf =
        ⟨[(0, b0), (1, p)], none, some (wrapError m)⟩) := by
  constructor
  · intro fs fetch rf
    rcases hloop : fetchLoop fetch (List.range (num_parts fs)) [] with ⟨files, err⟩
    rcases err with _ | m
    · rcases rf with _ | ⟨j, m⟩
      · rw [multi_part_download_eq_ok fs fetch files hloop]
        exact Or.inl rfl
      · rw [multi_part_download_eq_rfault fs fetch j m files hloop]
        exact Or.inr ⟨m, rfl⟩
    · rw [multi_part_download_eq_err fs fetch rf files m hloop]
      exact Or.inr ⟨m, rfl⟩
  · intro fs fetch rf b0 p m h0 h1 h2
    obtain ⟨rest, hrest⟩ := range_two_cons h2
    apply multi_part_download_eq_err
    rw [hrest]
    exact fetchLoop_err_second fetch b0 p m h0 h1 rest

/-- Witness for C6's amended theorem: a 5 GiB object (two planned parts)
whose second ranged read fails mid-stream. -/
theorem failure_wrapped_and_files_kept_witness :
    multi_part_download 5368709120
      (fun i => if i = 0 then FetchOutcome.ok [7] else FetchOutcome.err [9] "stream reset")
      none =
      ⟨[(0, [7]), (1, [9])], none, some (wrapError "stream reset")⟩ :=
  failure_wrapped_and_files_kept.2 5368709120 _ none [7] [9] "stream reset" rfl rfl
    (by rw [num_parts_5gib])

/-- C6 (counterexample): a write failure during reassembly happens after
`open(combined_file_path, 'wb')` has already created the final file
(line 121), so in that failure path a (partial) final file does exist,
refuting the claim that no final file is created on any failure. -/
theorem reassembly_failure_keeps_final_file_cex :
    (multi_part_download 1 (fun _ => FetchOutcome.ok [(42 : ℕ)])
        (some (0, "No space left on device"))).finalFile = some [] ∧
    (multi_part_download 1 (fun _ => FetchOutcome.ok [(42 : ℕ)])
        (some (0, "No space left on device"))).error =
      some "Error during multipart download: No space left on device" := by
  have hloop : fetchLoop (fun _ => FetchOutcome.ok [(42 : ℕ)])
      (List.range (num_parts 1)) [] = ([(0, [42])], none) := by
    rw [num_parts_one]
    exact fetchLoop_ok (fun _ => [42]) [0] []
  rw [multi_part_download_eq_rfault 1 _ 0 "No space left on device" [(0, [42])] hloop]
  exact ⟨rfl, rfl⟩

/-- C7: for a 50 GiB object the part size is indeed the 5 GiB floor, but
line 80 computes 11 parts, not 10: the plan has 11 ranges and its last
range `[53687091200, 53687091199]` is degenerate (start past the last
byte), an unsatisfiable eleventh range request. -/
theorem fifty_gib_plan_eval :
    _calculate_part_size 53687091200 = 5368709120 ∧
    num_parts 53687091200 = 11 ∧
    partPlan 53687091200 =
      [(0, 5368709119), (5368709120, 10737418239), (10737418240, 16106127359),
       (16106127360, 21474836479), (21474836480, 26843545599),
       (26843545600, 32212254719), (32212254720, 37580963839),
       (37580963840, 42949672959), (42949672960, 48318382079),
       (48318382080, 53687091199), (53687091200, 53687091199)] ∧
    ∃ p ∈ partPlan 53687091200, p.2 < p.1 := by
  have hplan : partPlan 53687091200 =
      [(0, 5368709119), (5368709120, 10737418239), (10737418240, 16106127359),
       (16106127360, 21474836479), (21474836480, 26843545599),
       (26843545600, 32212254719), (32212254720, 37580963839),
       (37580963840, 42949672959), (42949672960, 48318382079),
       (48318382080, 53687091199), (53687091200, 53687091199)] := by
    unfold partPlan
    rw [num_parts_50gib, part_size_50gib]
    decide
  refine ⟨part_size_50gib, num_parts_50gib, hplan,
    ⟨(53687091200, 53687091199), ?_, by norm_num⟩⟩
  rw [hplan]
  simp

/-- C8 (amended): whenever a report is emitted during a part's chunk
loop, the reported fraction is the cumulative number of bytes downloaded
so far of the current part divided by the part's content-range total —
not the size of the individual chunk — and the last-report timestamp
after any run is the time of the last emitted report (the initial value
when nothing was emitted), i.e. it moves only on emission. -/
theorem reports_fraction_and_timestamp :
    (∀ (ji : ℚ) (s0 : ProgressState) (times : List ℚ) (cs : List ℕ) (T : ℕ),
      ∀ r ∈ (runTracker ji s0 (times.zip (partCalls T cs))).2,
        ∃ j : ℕ, j + 1 ≤ cs.length ∧
          r.2 = (((cs.take (j + 1)).sum : ℕ) : ℚ) / (T : ℚ)) ∧
    (∀ (ji : ℚ) (s0 : ProgressState) (evs : List (ℚ × ℕ × ℕ)),
      (runTracker ji s0 evs).1.last_update =
        ((runTracker ji s0 evs).2.map Prod.fst).getLastD s0.last_update) := by
  constructor
  · intro ji s0 times cs T r hr
    obtain ⟨e, he, heq⟩ := runTracker_reports_mem ji s0 _ r hr
    obtain ⟨t, bp⟩ := e
    have he2 : bp ∈ partCalls T cs := (List.of_mem_zip he).2
    unfold partCalls at he2
    obtain ⟨b, hb, hbe⟩ := List.mem_map.mp he2
    obtain ⟨j, hj, hbsum⟩ := runningTotals_mem cs 0 b hb
    refine ⟨j, hj, ?_⟩
    rw [heq, ← hbe]
    simp only []
    rw [hbsum]
    simp
  · exact runTracker_last_update

/-- Witness for C8's amended theorem: a one-chunk part of 5 bytes with
content-range total 10, reported at time 1 from the zero state. -/
theorem reports_fraction_and_timestamp_witness :
    ∃ j : ℕ, j + 1 ≤ ([5] : List ℕ).length ∧
      (((1 : ℚ), ((5 : ℕ) : ℚ) / ((10 : ℕ) : ℚ)) : ℚ × ℚ).2 =
        ((([5].take (j + 1)).sum : ℕ) : ℚ) / ((10 : ℕ) : ℚ) := by
  apply reports_fraction_and_timestamp.1 1 ⟨0, 0⟩ [(1 : ℚ)] [5] 10
  rw [show [(1 : ℚ)].zip (partCalls 10 [5]) = [((1 : ℚ), (5, 10))] from rfl,
    runTracker_cons]
  rw [if_pos (by norm_num : (1 : ℚ) ≤ 1 - (⟨0, 0⟩ : ProgressState).last_update)]
  simp

/-- C8 (counterexample): a part of total 2 streamed as two 1-byte chunks
with no throttling emits the fractions `1/2` then `1`; the second report
is `1`, not the `1/2` that the chunk-size-over-part-total reading
predicts for a 1-byte chunk of a 2-byte part. -/
theorem report_fraction_not_chunk_cex :
    ((runTracker 1 ⟨0, 0⟩ ([(1 : ℚ), 2].zip (runCalls [(2, [1, 1])]))).2.map
        Prod.snd) = [1 / 2, 1] ∧ ((1 : ℚ) ≠ 1 / 2) := by
  constructor
  · rw [show [(1 : ℚ), 2].zip (runCalls [(2, [1, 1])]) =
        [((1 : ℚ), (1, 2)), ((2 : ℚ), (2, 2))] from rfl]
    rw [runTracker_cons]
    rw [if_pos (by norm_num : (1 : ℚ) ≤ 1 - (⟨0, 0⟩ : ProgressState).last_update)]
    rw [runTracker_cons]
    rw [if_pos (by norm_num :
      (1 : ℚ) ≤ 2 - (⟨(0 : ℕ) + 1, (1 : ℚ)⟩ : ProgressState).last_update)]
    rw [runTracker_nil]
    norm_num
  · norm_num

/-- C9: for a 1-byte object the plan is a single part covering exactly
the inclusive range `[0, 0]`; but the download cannot complete as
claimed, because the very first chunk's progress callback reads the
unbound global `bytes_transferred` and raises `NameError`. -/
theorem one_byte_plan_and_init_crash :
    partPlan 1 = [(0, 0)] ∧
    progress_download_callback_py moduleInitGlobals 1700000000 1 1 =
      Except.error "NameError: name bytes_transferred is not defined" :=
  ⟨partPlan_one, rfl⟩

/-- C10 (amended): for every file size below `2 ^ 53` the part count of
line 80, computed with binary64 float division, agrees with the exact
`floor(file_size / part_size) + 1`; beyond `2 ^ 53` the float quotient
can round up across an integer and add a spurious extra part. -/
theorem num_parts_float_matches_exact_below_pow53 (fs : ℕ) (h1 : 1 ≤ fs)
    (h53 : fs < 2 ^ 53) :
    num_parts fs = fs / _calculate_part_size fs + 1 :=
  num_parts_eq_exact h1 h53

/-- Witness for C10's amended theorem at the 50 GiB size. -/
theorem num_parts_float_matches_exact_below_pow53_witness :
    num_parts 53687091200 = 53687091200 / _calculate_part_size 53687091200 + 1 :=
  num_parts_float_matches_exact_below_pow53 53687091200 (by decide) (by decide)

/-- C10 (counterexample): at `file_size = 10000 * 2 ^ 40 - 1` (just above
`2 ^ 53`) the part size is `2 ^ 40` and the float quotient
`9999.9999999999990905...` rounds (ties-to-even on the 53-bit
significand) up to exactly `10000`, so line 80 yields 10001 parts while
the exact value `floor(file_size / part_size) + 1` is 10000. -/
theorem num_parts_float_rounds_up_cex :
    num_parts 10995116277759999 ≠
      10995116277759999 / _calculate_part_size 10995116277759999 + 1 := by
  rw [num_parts_tie, part_size_tie]
  decide

end S3OptiFetch
